import Mathlib

/-
Verification development for the rdf_class_viz repository.

The repository extracts a class-relationship graph from an RDF store and
renders it as colored diagram text.  This file gives a shallow embedding of
the core pipeline — the term normalizer (rewrite_term), the color resolver
(to_color), the graph builder (create_graph with its deferred node/edge
insertion), the d2 serializer, the CLI argument check, and the scripted
filter variant (UserFilter) — and proves theorems about them.

Modelling conventions:
- Rust String / str values are embedded as List Char (abbreviated Str);
  str::replace and str::trim_matches are implemented below with the same
  semantics (replace all non-overlapping occurrences scanning left to
  right; trim the given characters from both ends).
- An RDF Term is represented by its canonical textual rendering (the string
  produced by Term::to_string in the source), which is the only aspect of a
  Term the pipeline observes: it is what the filter receives, what
  rewrite_term rewrites, and what is interpolated into the ASK query.
- The SPARQL store is an oracle: the ASK query issued by to_color becomes a
  function from (term rendering, class IRI) to Except QueryError Bool; an
  error models a failed query execution.
- Rust std::collections::HashMap has an unspecified iteration order: any
  permutation of the inserted entries is a possible order.  Functions that
  iterate a HashMap (to_color over class_color_map, rewrite_term over
  PREFIXES) therefore take the iteration order as an explicit list
  parameter; theorems quantify over, or exhibit, possible orders.
- A Rust panic (from .unwrap() on an Err) is modelled by the dedicated
  RunResult.panicked outcome, distinct from an error Result returned to the
  caller (RunResult.err).
-/
namespace RdfClassViz


/-- Strings are modelled as lists of characters. -/
abbrev Str := List Char

/-- Boolean prefix test on character lists (used by replaceAll). -/
def isPrefixOfB : Str → Str → Bool
  | [], _ => true
  | _ :: _, [] => false
  | a :: as, b :: bs => decide (a = b) && isPrefixOfB as bs

/-- Boolean substring-occurrence test: does pat occur contiguously in s? -/
def occursB (pat : Str) : Str → Bool
  | [] => isPrefixOfB pat []
  | c :: s => isPrefixOfB pat (c :: s) || occursB pat s

/-- Worker for replaceAll, structurally recursive on a fuel argument.
Every step consumes at least one character of the subject string and one
unit of fuel, so fuel equal to the subject's length never runs out; the
fuel-exhausted branch is unreachable when called that way. -/
def replaceAllFuel (pat repl : Str) : Nat → Str → Str
  | _, [] => []
  | 0, s => s
  | fuel + 1, c :: s =>
    if isPrefixOfB pat (c :: s) then
      repl ++ replaceAllFuel pat repl fuel (List.drop (pat.length - 1) s)
    else
      c :: replaceAllFuel pat repl fuel s

/-- Embedding of Rust str::replace: replace every non-overlapping occurrence
of pat in the subject string by repl, scanning left to right.  All patterns
used in the repository are nonempty. -/
def replaceAll (pat repl s : Str) : Str :=
  replaceAllFuel pat repl s.length s

/-- The three characters trimmed by rewrite_term, from
let matches = &['<', '>', '"'] in the source. -/
def isTrimChar (c : Char) : Bool :=
  decide (c = '<') || decide (c = '>') || decide (c = '"')

/-- Embedding of Rust str::trim_matches with the character set above:
remove those characters from both ends of the string. -/
def trimMatches (s : Str) : Str :=
  ((s.dropWhile isTrimChar).reverse.dropWhile isTrimChar).reverse

/-- The Brick namespace IRI from the PREFIXES table in the source. -/
def brickNs : Str := "https://brickschema.org/schema/Brick#".toList

/-- The RDF namespace IRI from the PREFIXES table in the source. -/
def rdfNs : Str := "http://www.w3.org/1999/02/22-rdf-syntax-ns#".toList

/-- The OWL namespace IRI from the PREFIXES table in the source. -/
def owlNs : Str := "http://www.w3.org/2002/07/owl#".toList

/-- The static PREFIXES table of the source, as (short name, namespace IRI)
entries.  The source stores it in a HashMap, so the order in which
rewrite_term iterates it is an unspecified permutation of this list. -/
def PREFIXES : List (Str × Str) :=
  [("brick".toList, brickNs), ("rdf".toList, rdfNs), ("owl".toList, owlNs)]

/-- Embedding of rewrite_term from src/lib/src/lib.rs: render the term (the
argument is already the rendering), replace each namespace IRI of the table
by its short name followed by an underscore, then trim the delimiter
characters from both ends.  The order argument is the iteration order of
the PREFIXES HashMap. -/
def rewrite_term (order : List (Str × Str)) (node : Str) : Str :=
  trimMatches (order.foldl (fun s pn => replaceAll pn.2 (pn.1 ++ ['_']) s) node)

/-- A query-execution failure, carrying the message of the underlying
error. -/
abbrev QueryError := Str

/-- The ASK-query oracle consumed from the store: given the rendering of
the candidate term and the class IRI of a rule, answer whether the
reflexive-transitive subclass/equivalent-class relation holds, or fail. -/
abbrev AskOracle := Str → Str → Except QueryError Bool

/-- The default color returned by to_color when no rule matches
(white). -/
def defaultColor : Str := "#ffffff".toList

/-- Embedding of Visualizer::to_color from src/lib/src/lib.rs: iterate the
class_color_map entries (the rules argument is the HashMap iteration
order), issue the ancestry ASK query per rule, and return the first
matching rule's color; a query failure propagates as an error (the question
mark operator in the source); if no rule matches, return the default color
#ffffff. -/
def to_color (ask : AskOracle) (rules : List (Str × Str)) (node : Str) :
    Except QueryError Str :=
  match rules with
  | [] => Except.ok defaultColor
  | (class_name, color) :: rest =>
    match ask node class_name with
    | Except.error e => Except.error e
    | Except.ok true => Except.ok color
    | Except.ok false => to_color ask rest node

/-- Color resolution as the specification words it: the first rule in the
given rule list whose ancestry query answers true wins, and the default
color is returned when no rule matches.  Stated for a total oracle. -/
def resolve_color_spec (ask : Str → Str → Bool) (rules : List (Str × Str))
    (node : Str) : Str :=
  match rules.find? (fun rule => ask node rule.1) with
  | some r => r.2
  | none => defaultColor

/-- Concrete color rule (urn:A, red) used in counterexamples. -/
def ruleA : Str × Str := ("urn:A".toList, "red".toList)

/-- Concrete color rule (urn:B, blue) used in counterexamples. -/
def ruleB : Str × Str := ("urn:B".toList, "blue".toList)

/-- Outcome of running a fallible piece of the pipeline.  An ok value and
an err value model Rust Ok and Err results returned to the caller; panicked
models a Rust panic (from .unwrap() on an Err), which aborts instead of
returning any Result. -/
inductive RunResult (α : Type) where
  | ok : α → RunResult α
  | err : Str → RunResult α
  | panicked : RunResult α
deriving DecidableEq

/-- One relationship row from the SELECT query, each variable given by the
rendering of the bound Term. -/
structure Row where
  from_ : Str
  p : Str
  to_ : Str
deriving DecidableEq

/-- The builder state accumulated during the row loop of create_graph:
the labels vector, the colors map (as an association list in key-insertion
order), the recorded (from, to, predicate) index triples, and — as
instrumentation for the caching claim — the list of labels for which
to_color was actually executed, in execution order. -/
structure BuildState where
  labels : List Str
  colors : List (Str × Str)
  edges : List (Nat × Nat × Nat)
  resolved : List Str
deriving DecidableEq

/-- HashMap::contains_key on the colors map. -/
def containsKey : List (Str × Str) → Str → Bool
  | [], _ => false
  | (k', _) :: rest, k => if k' = k then true else containsKey rest k

/-- HashMap::insert on the colors map; in the source it is only called
when the key is absent, so appending keeps one entry per key, in
first-insertion order. -/
def insertKV (m : List (Str × Str)) (k v : Str) : List (Str × Str) :=
  m ++ [(k, v)]

/-- The per-label color step of create_graph: when the label is not yet in
the colors cache, run to_color on the raw term and insert the result; the
source unwraps the to_color Result, so a query failure panics. -/
def resolveColor (ask : AskOracle) (rules : List (Str × Str))
    (colors : List (Str × Str)) (resolved : List Str) (term label : Str) :
    RunResult (List (Str × Str) × List Str) :=
  if containsKey colors label then RunResult.ok (colors, resolved)
  else
    match to_color ask rules term with
    | Except.error _ => RunResult.panicked
    | Except.ok c => RunResult.ok (insertKV colors label c, resolved ++ [label])

/-- One iteration of the row loop of create_graph in src/lib/src/lib.rs:
apply the filter to the three raw term renderings and skip the row when it
answers false; otherwise normalize from, resolve/cache its color, push its
label; likewise for to; normalize and push the predicate label; record the
index triple. -/
def processRow (ask : AskOracle) (rules order : List (Str × Str))
    (filter : Str → Str → Str → Bool) (st : BuildState) (row : Row) :
    RunResult BuildState :=
  if !(filter row.from_ row.to_ row.p) then RunResult.ok st
  else
    let f := rewrite_term order row.from_
    match resolveColor ask rules st.colors st.resolved row.from_ f with
    | RunResult.panicked => RunResult.panicked
    | RunResult.err e => RunResult.err e
    | RunResult.ok (colors1, resolved1) =>
      let labels1 := st.labels ++ [f]
      let f_idx := labels1.length - 1
      let t := rewrite_term order row.to_
      match resolveColor ask rules colors1 resolved1 row.to_ t with
      | RunResult.panicked => RunResult.panicked
      | RunResult.err e => RunResult.err e
      | RunResult.ok (colors2, resolved2) =>
        let labels2 := labels1 ++ [t]
        let t_idx := labels2.length - 1
        let e := rewrite_term order row.p
        let labels3 := labels2 ++ [e]
        let e_idx := labels3.length - 1
        RunResult.ok { labels := labels3, colors := colors2,
                       edges := st.edges ++ [(f_idx, t_idx, e_idx)],
                       resolved := resolved2 }

/-- The whole row loop of create_graph, over the rows the store yields, in
order. -/
def processRows (ask : AskOracle) (rules order : List (Str × Str))
    (filter : Str → Str → Str → Bool) :
    List Row → BuildState → RunResult BuildState
  | [], st => RunResult.ok st
  | row :: rest, st =>
    match processRow ask rules order filter st row with
    | RunResult.ok st1 => processRows ask rules order filter rest st1
    | RunResult.err e => RunResult.err e
    | RunResult.panicked => RunResult.panicked

/-- The petgraph directed graph as the builder uses it: node i carries
weight nodeWeights[i]; each edge is (source index, target index, weight),
listed in insertion order. -/
structure DiGraph where
  nodeWeights : List Str
  edges : List (Nat × Nat × Str)
deriving DecidableEq

/-- Lookup in the nodes HashMap (Label to NodeIndex). -/
def lookupNode : List (Str × Nat) → Str → Option Nat
  | [], _ => none
  | (k', i) :: rest, k => if k' = k then some i else lookupNode rest k

/-- The nodes.entry(label).or_insert_with(add_node label) idiom: reuse the
node index recorded for the label, or add a fresh node and record its
index. -/
def entryOrInsert (nodes : List (Str × Nat)) (g : DiGraph) (k : Str) :
    List (Str × Nat) × DiGraph × Nat :=
  match lookupNode nodes k with
  | some i => (nodes, g, i)
  | none =>
    (nodes ++ [(k, g.nodeWeights.length)],
     { g with nodeWeights := g.nodeWeights ++ [k] }, g.nodeWeights.length)

/-- The edge-list semantics of petgraph update_edge: update the weight of
the first existing edge with the given endpoints, or append a new edge.
Stated polymorphically in the endpoint type so the same update shape can be
used on node indices and on labels. -/
def updateEdgeList {α : Type} [DecidableEq α] :
    List (α × α × Str) → α → α → Str → List (α × α × Str)
  | [], a, b, w => [(a, b, w)]
  | e :: es, a, b, w =>
    if e.1 = a ∧ e.2.1 = b then (a, b, w) :: es
    else e :: updateEdgeList es a b w

/-- Graph::update_edge: add the edge or update the weight of the existing
one. -/
def update_edge (g : DiGraph) (a b : Nat) (w : Str) : DiGraph :=
  { g with edges := updateEdgeList g.edges a b w }

/-- The deferred graph-insertion loop of create_graph: for each recorded
index triple, look up or create the from node and the to node, then
update_edge with the predicate label. -/
def insertEdges (labels : List Str) :
    List (Nat × Nat × Nat) → List (Str × Nat) → DiGraph → DiGraph
  | [], _, g => g
  | (fi, ti, ei) :: rest, nodes, g =>
    let r1 := entryOrInsert nodes g (labels.getD fi [])
    let r2 := entryOrInsert r1.1 r1.2.1 (labels.getD ti [])
    insertEdges labels rest r2.1 (update_edge r2.2.1 r1.2.2 r2.2.2 (labels.getD ei []))

/-- The empty builder state create_graph starts from. -/
def emptyState : BuildState := ⟨[], [], [], []⟩

/-- The empty graph create_graph starts from. -/
def emptyGraph : DiGraph := ⟨[], []⟩

/-- Embedding of Visualizer::create_graph (colorized variant,
src/lib/src/lib.rs), past the store loading and SELECT query: run the row
loop from the empty state, then run the deferred insertion pass, yielding
the graph, the colors map, and the instrumentation trace of resolved
labels. -/
def create_graph (ask : AskOracle) (rules order : List (Str × Str))
    (filter : Str → Str → Str → Bool) (rows : List Row) :
    RunResult (DiGraph × List (Str × Str) × List Str) :=
  match processRows ask rules order filter rows emptyState with
  | RunResult.ok st =>
      RunResult.ok (insertEdges st.labels st.edges [] emptyGraph, st.colors, st.resolved)
  | RunResult.err e => RunResult.err e
  | RunResult.panicked => RunResult.panicked

/-- One output line of graph_to_d2lang: either an edge line
(from -> to: label) or a fill line (node.style.fill: color). -/
inductive D2Line where
  | edgeLine : Str → Str → Str → D2Line
  | fillLine : Str → Str → D2Line
deriving DecidableEq

/-- Embedding of Visualizer::graph_to_d2lang: one line per edge of the
graph, then one fill line per entry of the colors map (the colors argument
is the HashMap iteration order). -/
def graph_to_d2lang (g : DiGraph) (colors : List (Str × Str)) : List D2Line :=
  g.edges.map (fun e =>
    D2Line.edgeLine (g.nodeWeights.getD e.1 []) (g.nodeWeights.getD e.2.1 []) e.2.2)
    ++ colors.map fun kc => D2Line.fillLine kc.1 kc.2

/-- Does a row survive the filter?  This is the raw-term predicate of the
row loop. -/
def survives (filter : Str → Str → Str → Bool) (r : Row) : Bool :=
  filter r.from_ r.to_ r.p

/-- The normalized (from, to, predicate) label triple of one row. -/
def rowTriple (order : List (Str × Str)) (r : Row) : Str × Str × Str :=
  (rewrite_term order r.from_, rewrite_term order r.to_, rewrite_term order r.p)

/-- The normalized label triples of the surviving rows, in processing
order. -/
def survivorTriples (order : List (Str × Str)) (filter : Str → Str → Str → Bool)
    (rows : List Row) : List (Str × Str × Str) :=
  (rows.filter (survives filter)).map (rowTriple order)

/-- The from and to labels of the surviving rows, in processing order
(from before to within a row). -/
def fromToLabels (order : List (Str × Str)) (filter : Str → Str → Str → Bool)
    (rows : List Row) : List Str :=
  (rows.filter (survives filter)).flatMap fun r =>
    [rewrite_term order r.from_, rewrite_term order r.to_]

/-- Deduplication keeping the first occurrence of each element, appending
the new elements after an already-seen accumulator. -/
def dedupFirstAux (acc : List Str) : List Str → List Str
  | [] => acc
  | x :: xs => if x ∈ acc then dedupFirstAux acc xs else dedupFirstAux (acc ++ [x]) xs

/-- Deduplication keeping the first occurrence of each element. -/
def dedupFirst (l : List Str) : List Str := dedupFirstAux [] l

/-- The predicate label of the last triple in the list with the given
ordered (from, to) label pair, if any. -/
def lastPred : List (Str × Str × Str) → Str → Str → Option Str
  | [], _, _ => none
  | t :: ts, a, b =>
    match lastPred ts a b with
    | some w => some w
    | none => if t.1 = a ∧ t.2.1 = b then some t.2.2 else none

/-- One step of last-write-wins edge collapsing at the label level. -/
def collapseStep (acc : List (Str × Str × Str)) (t : Str × Str × Str) :
    List (Str × Str × Str) :=
  updateEdgeList acc t.1 t.2.1 t.2.2

/-- Last-write-wins collapse of a label-triple sequence: at most one entry
per ordered (from, to) pair, carrying the last predicate written. -/
def collapse (ts : List (Str × Str × Str)) : List (Str × Str × Str) :=
  ts.foldl collapseStep []

/-- The recorded edges of a builder state with their indices resolved to
labels. -/
def tripleView (st : BuildState) : List (Str × Str × Str) :=
  st.edges.map fun e =>
    (st.labels.getD e.1 [], st.labels.getD e.2.1 [], st.labels.getD e.2.2 [])

/-- The edges of the built graph with node indices resolved to node
weights (labels). -/
def labelView (g : DiGraph) : List (Str × Str × Str) :=
  g.edges.map fun e => (g.nodeWeights.getD e.1 [], g.nodeWeights.getD e.2.1 [], e.2.2)

/-- The sublist of label triples with the given ordered (from, to) pair. -/
def filterPair {α : Type} [DecidableEq α] (a b : α) (l : List (α × α × Str)) :
    List (α × α × Str) :=
  l.filter fun t => decide (t.1 = a) && decide (t.2.1 = b)

/-- The predicate labels of the edges of the built graph between the nodes
labeled a and b, in edge order. -/
def edgesBetween (g : DiGraph) (a b : Str) : List Str :=
  (filterPair a b (labelView g)).map fun t => t.2.2

/-- The ordered endpoint pairs of an edge list. -/
def pairsOf {α : Type} (l : List (α × α × Str)) : List (α × α) :=
  l.map fun e => (e.1, e.2.1)

/-- The keys of the colors map, in insertion order. -/
def colorKeys (m : List (Str × Str)) : List Str := m.map Prod.fst

/-- Number of occurrences of a string in a list of strings. -/
def countOcc (l : List Str) (x : Str) : Nat :=
  (l.filter fun y => decide (y = x)).length

/-- An oracle whose ancestry query always answers true. -/
def askTrue : AskOracle := fun _ _ => Except.ok true

/-- An oracle whose ancestry query always fails. -/
def askFail : AskOracle := fun _ _ => Except.error ("query failed".toList)

/-- A concrete row relating instance classes urn:x and urn:y by urn:p. -/
def rowXY : Row := ⟨"<urn:x>".toList, "<urn:p>".toList, "<urn:y>".toList⟩

/-- A concrete row with the same (from, to) pair as rowXY but predicate
urn:q. -/
def rowXY2 : Row := ⟨"<urn:x>".toList, "<urn:q>".toList, "<urn:y>".toList⟩

/-- The filter of the colorized CLI: keep every row. -/
def filterTrue : Str → Str → Str → Bool := fun _ _ _ => true

/-- A filter keeping only rows whose raw predicate rendering is
exactly urn:p in angle brackets. -/
def filterP : Str → Str → Str → Bool := fun _ _ e => decide (e = "<urn:p>".toList)

/-- Outcome of the CLI front end: either print the usage message to
standard error and exit with the given status having opened the listed
files, or proceed with the ontology files (in argument order) and the
data-graph file. -/
inductive CliOutcome where
  | usageExit : Bool → Nat → List Str → CliOutcome
  | proceed : List Str → Str → CliOutcome
deriving DecidableEq

/-- Embedding of the argument handling of main in src/cli/src/main.rs.
The args list is the full argument vector including the program name at
position zero.  When args.len() < 3 the program prints the usage message
to standard error and exits with status 1, before any file is opened;
otherwise every argument but the first and last is an ontology file and
the last is the data graph. -/
def cliMain (args : List Str) : CliOutcome :=
  if args.length < 3 then CliOutcome.usageExit true 1 []
  else CliOutcome.proceed ((args.drop 1).dropLast) (args.getLast?.getD [])

/-- The scripted filter call of the scripted-filter variant
(src/src/lib.rs): calling the loaded script's filter function with the
three string arguments either produces a boolean or fails (the script has
no filter function, the call throws, or the returned value does not
deserialize to a boolean). -/
abbrev ScriptCall := Str → Str → Str → Except Str Bool

/-- Embedding of UserFilter from src/src/lib.rs: vm is the behavior of the
loaded script. -/
structure UserFilter where
  vm : ScriptCall

/-- Embedding of UserFilter::filter from src/src/lib.rs: call the script's
filter function with the three strings and unwrap the result.  The Rust
return type is a plain bool, so a failing call panics; there is no error
alternative to return. -/
def UserFilter.filter (uf : UserFilter) (from_ to_ edge : Str) : RunResult Bool :=
  match uf.vm from_ to_ edge with
  | Except.ok b => RunResult.ok b
  | Except.error _ => RunResult.panicked

/-- A script whose filter call always succeeds with true. -/
def scriptOk : UserFilter := ⟨fun _ _ _ => Except.ok true⟩

/-- A script whose filter call always fails. -/
def scriptBad : UserFilter := ⟨fun _ _ _ => Except.error ("not a boolean".toList)⟩

/-- The from and to labels of a triple list, in order. -/
def fromToOf (ts : List (Str × Str × Str)) : List Str :=
  ts.flatMap fun t => [t.1, t.2.1]

/-- Label-level form of the deferred insertion loop, used to relate
insertEdges to the collapse semantics. -/
def insertEdgesL : List (Str × Str × Str) → List (Str × Nat) → DiGraph → DiGraph
  | [], _, g => g
  | t :: rest, nodes, g =>
    let r1 := entryOrInsert nodes g t.1
    let r2 := entryOrInsert r1.1 r1.2.1 t.2.1
    insertEdgesL rest r2.1 (update_edge r2.2.1 r1.2.2 r2.2.2 t.2.2)

/-- All recorded edge indices of a builder state point into its labels
vector. -/
def edgesValid (st : BuildState) : Prop :=
  ∀ e ∈ st.edges, e.1 < st.labels.length ∧ e.2.1 < st.labels.length ∧
    e.2.2 < st.labels.length

/-- Invariant tying the nodes HashMap to the graph during the deferred
insertion pass: the map answers exactly for the labels already added as
nodes, every recorded index points at a node carrying that label, node
labels are pairwise distinct, and every edge endpoint is a valid node
index. -/
structure NodesInv (nodes : List (Str × Nat)) (g : DiGraph) : Prop where
  lookup_none : ∀ k, lookupNode nodes k = none ↔ k ∉ g.nodeWeights
  lookup_some : ∀ k i, lookupNode nodes k = some i →
    i < g.nodeWeights.length ∧ g.nodeWeights.getD i [] = k
  nodup : g.nodeWeights.Nodup
  edges_lt : ∀ e ∈ g.edges, e.1 < g.nodeWeights.length ∧ e.2.1 < g.nodeWeights.length

theorem replaceAll_nil (pat repl : Str) : replaceAll pat repl [] = [] := rfl

theorem occursB_cons (pat : Str) (c : Char) (s : Str) :
    occursB pat (c :: s) = (isPrefixOfB pat (c :: s) || occursB pat s) := rfl

theorem replaceAllFuel_of_not_occurs (pat repl : Str) :
    ∀ (fuel : Nat) (s : Str), occursB pat s = false →
      replaceAllFuel pat repl fuel s = s := by
  intro fuel
  induction fuel with
  | zero =>
    intro s _
    cases s <;> rfl
  | succ n ih =>
    intro s h
    cases s with
    | nil => rfl
    | cons c s' =>
      rw [occursB_cons, Bool.or_eq_false_iff] at h
      rw [replaceAllFuel, if_neg (by simp [h.1]), ih s' h.2]

theorem replaceAll_of_not_occurs (pat repl s : Str) (h : occursB pat s = false) :
    replaceAll pat repl s = s :=
  replaceAllFuel_of_not_occurs pat repl s.length s h

theorem foldl_replace_id (l : List (Str × Str)) (s : Str)
    (h : ∀ pn ∈ l, occursB pn.2 s = false) :
    l.foldl (fun s pn => replaceAll pn.2 (pn.1 ++ ['_']) s) s = s := by
  induction l with
  | nil => rfl
  | cons pn rest ih =>
    simp only [List.foldl_cons]
    rw [replaceAll_of_not_occurs _ _ _ (h pn (by simp))]
    exact ih fun q hq => h q (by simp [hq])

/-- C7: rewrite_term renders the term, substitutes each namespace of the
fixed table (brick, rdf, owl) by its short name plus underscore, then trims
angle brackets and quotation marks from both ends; it is a total function
(never errors), it is deterministic (equal term texts give equal labels),
and a term containing none of the three namespaces passes through
unmodified apart from delimiter trimming — for every possible iteration
order of the PREFIXES table. -/
theorem rewrite_term_props (order : List (Str × Str)) (s t : Str)
    (horder : order.Perm PREFIXES) :
    (s = t → rewrite_term order s = rewrite_term order t) ∧
    ((∀ ns ∈ [brickNs, rdfNs, owlNs], occursB ns s = false) →
      rewrite_term order s = trimMatches s) := by
  refine ⟨fun h => by rw [h], fun h => ?_⟩
  unfold rewrite_term
  rw [foldl_replace_id]
  intro pn hpn
  have hmem : pn ∈ PREFIXES := horder.mem_iff.mp hpn
  have h2 : pn.2 ∈ [brickNs, rdfNs, owlNs] := by
    simp only [PREFIXES, List.mem_cons, List.not_mem_nil, or_false] at hmem
    rcases hmem with h1 | h1 | h1 <;> subst h1 <;> simp
  exact h pn.2 h2

/-- Witness for C7 at the table's own order and a concrete IRI term that
contains none of the three namespaces. -/
theorem rewrite_term_props_witness :
    PREFIXES.Perm PREFIXES ∧
    (∀ ns ∈ [brickNs, rdfNs, owlNs], occursB ns ("<urn:abc>".toList) = false) ∧
    rewrite_term PREFIXES ("<urn:abc>".toList) = trimMatches ("<urn:abc>".toList) :=
  ⟨List.Perm.refl _, by decide,
    (rewrite_term_props PREFIXES ("<urn:abc>".toList) ("<urn:abc>".toList)
      (List.Perm.refl _)).2 (by decide)⟩

/-- C1 counterexample: the rules live in a HashMap, whose iteration order
is an unspecified permutation of the inserted entries, so the
caller-supplied order is not respected.  With caller order
[(A, red), (B, blue)], the reversed list is a possible iteration order,
and for a class whose ancestry query matches both rules, to_color then
returns blue — not red as the claim requires. -/
theorem to_color_order_counterexample :
    [ruleB, ruleA].Perm [ruleA, ruleB] ∧
    to_color (fun _ _ => Except.ok true) [ruleB, ruleA] ("urn:C".toList) =
      Except.ok ("blue".toList) ∧
    resolve_color_spec (fun _ _ => true) [ruleA, ruleB] ("urn:C".toList) =
      "red".toList ∧
    ("blue".toList : Str) ≠ "red".toList :=
  ⟨List.Perm.swap ruleA ruleB [], rfl, rfl, by decide⟩

/-- C1 amended: for a total oracle, to_color returns the color of the
first rule in the map's iteration order (an unspecified permutation of the
caller-supplied rules, not necessarily the caller's order) whose ancestry
query answers true, and the fixed default color white (#ffffff) when no
rule's query answers true. -/
theorem to_color_first_match_iteration_order (ask : Str → Str → Bool)
    (iterOrder : List (Str × Str)) (node : Str) :
    to_color (fun n c => Except.ok (ask n c)) iterOrder node =
      Except.ok (resolve_color_spec ask iterOrder node) := by
  induction iterOrder with
  | nil => rfl
  | cons r rest ih =>
    obtain ⟨cn, col⟩ := r
    by_cases h : ask node cn = true
    · simp [to_color, resolve_color_spec, h, List.find?]
    · rw [Bool.not_eq_true] at h
      simp only [to_color, h, resolve_color_spec, List.find?] at ih ⊢
      exact ih

theorem processRow_skip (ask : AskOracle) (rules order : List (Str × Str))
    (filter : Str → Str → Str → Bool) (st : BuildState) (row : Row)
    (h : survives filter row = false) :
    processRow ask rules order filter st row = RunResult.ok st := by
  have h' : filter row.from_ row.to_ row.p = false := h
  simp [processRow, h']

theorem processRows_drop_filtered (ask : AskOracle) (rules order : List (Str × Str))
    (filter : Str → Str → Str → Bool) (row : Row)
    (h : survives filter row = false) :
    ∀ (pre post : List Row) (st : BuildState),
      processRows ask rules order filter (pre ++ row :: post) st =
        processRows ask rules order filter (pre ++ post) st := by
  intro pre
  induction pre with
  | nil =>
    intro post st
    simp only [List.nil_append, processRows,
      processRow_skip ask rules order filter st row h]
  | cons r pre ih =>
    intro post st
    simp only [List.cons_append, processRows]
    cases processRow ask rules order filter st r with
    | ok st1 => exact ih post st1
    | err e => rfl
    | panicked => rfl

/-- C4: a row on which the filter answers false (applied to the three raw,
pre-normalization term renderings) contributes no node, no edge and no
color-cache entry: the whole build result is the same as if the row had
not been in the input at all.  Other rows are unaffected, so a term of the
dropped row may still appear via other surviving rows — exclusion is
per-row, not per-term. -/
theorem create_graph_filtered_row_frame (ask : AskOracle)
    (rules order : List (Str × Str)) (filter : Str → Str → Str → Bool)
    (pre post : List Row) (row : Row) (h : survives filter row = false) :
    create_graph ask rules order filter (pre ++ row :: post) =
      create_graph ask rules order filter (pre ++ post) := by
  unfold create_graph
  rw [processRows_drop_filtered ask rules order filter row h pre post emptyState]

/-- Witness for C4: dropping the filtered-out second row leaves the build
of the surviving first row unchanged. -/
theorem create_graph_filtered_row_frame_witness :
    survives filterP rowXY2 = false ∧
    create_graph askTrue [ruleA] PREFIXES filterP ([rowXY] ++ rowXY2 :: []) =
      create_graph askTrue [ruleA] PREFIXES filterP ([rowXY] ++ []) :=
  ⟨by decide,
    create_graph_filtered_row_frame askTrue [ruleA] PREFIXES filterP [rowXY] []
      rowXY2 (by decide)⟩

/-- C6 counterexample: when the ancestry ASK query fails while resolving a
color, create_graph panics (the source unwraps the to_color Result); the
build does not return an error Result to its caller. -/
theorem ask_failure_not_error_result_counterexample :
    create_graph askFail [ruleA] PREFIXES filterTrue [rowXY] = RunResult.panicked ∧
    ∀ e, create_graph askFail [ruleA] PREFIXES filterTrue [rowXY] ≠ RunResult.err e := by
  refine ⟨rfl, fun e h => ?_⟩
  rw [(rfl : create_graph askFail [ruleA] PREFIXES filterTrue [rowXY]
    = RunResult.panicked)] at h
  exact RunResult.noConfusion h

/-- C6 amended: a failing ancestry query during color resolution aborts
the whole build with a panic: it is never treated as no match (no default
color is cached and no further row is processed), but the failure reaches
the caller as a panic, not as an error Result. -/
theorem ask_failure_panics (ask : AskOracle) (rules order : List (Str × Str))
    (filter : Str → Str → Str → Bool) (row : Row) (rest : List Row)
    (e : QueryError) (hs : survives filter row = true)
    (hfail : to_color ask rules row.from_ = Except.error e) :
    create_graph ask rules order filter (row :: rest) = RunResult.panicked := by
  have h' : filter row.from_ row.to_ row.p = true := hs
  have hp : processRow ask rules order filter emptyState row = RunResult.panicked := by
    simp [processRow, h', resolveColor, emptyState, containsKey, hfail]
  unfold create_graph
  simp only [processRows, hp]

/-- Witness for C6 amended: the failing oracle panics the concrete
one-row build. -/
theorem ask_failure_panics_witness :
    survives filterTrue rowXY = true ∧
    to_color askFail [ruleA] rowXY.from_ = Except.error ("query failed".toList) ∧
    create_graph askFail [ruleA] [] filterTrue [rowXY] = RunResult.panicked :=
  ⟨rfl, rfl, ask_failure_panics askFail [ruleA] [] filterTrue rowXY []
    ("query failed".toList) rfl rfl⟩

/-- C8: invoking the CLI with fewer than two positional arguments (fewer
than three argv entries counting the program name) writes the usage
message to standard error and exits with status 1, a nonzero status,
having performed no file open. -/
theorem cliMain_usage (args : List Str) (h : args.length < 3) :
    cliMain args = CliOutcome.usageExit true 1 [] ∧ (1 : Nat) ≠ 0 := by
  refine ⟨?_, by decide⟩
  unfold cliMain
  rw [if_pos h]

/-- Witness for C8 at a single positional argument. -/
theorem cliMain_usage_witness :
    (["prog".toList, "onlyArg".toList] : List Str).length < 3 ∧
    (cliMain ["prog".toList, "onlyArg".toList] = CliOutcome.usageExit true 1 [] ∧
      (1 : Nat) ≠ 0) :=
  ⟨by decide, cliMain_usage ["prog".toList, "onlyArg".toList] (by decide)⟩

/-- C10: UserFilter::filter returns normally exactly when the script call
evaluates without error to a boolean; when the call fails it panics; and
in no case does it return an error value to the Graph Builder. -/
theorem userFilter_filter_panics (uf : UserFilter) (f t e : Str) :
    ((∃ b, uf.vm f t e = Except.ok b) → ∃ b, uf.filter f t e = RunResult.ok b) ∧
    (∀ er, uf.vm f t e = Except.error er → uf.filter f t e = RunResult.panicked) ∧
    (∀ msg, uf.filter f t e ≠ RunResult.err msg) := by
  refine ⟨fun hb => ?_, fun er her => ?_, fun msg h => ?_⟩
  · obtain ⟨b, hb⟩ := hb
    exact ⟨b, by simp [UserFilter.filter, hb]⟩
  · simp [UserFilter.filter, her]
  · unfold UserFilter.filter at h
    cases hv : uf.vm f t e with
    | ok b => rw [hv] at h; exact RunResult.noConfusion h
    | error e' => rw [hv] at h; exact RunResult.noConfusion h

/-- Witness for C10: the well-behaved script returns normally, the failing
script panics. -/
theorem userFilter_filter_panics_witness :
    (∃ b, scriptOk.filter [] [] [] = RunResult.ok b) ∧
    scriptBad.filter [] [] [] = RunResult.panicked :=
  ⟨(userFilter_filter_panics scriptOk [] [] []).1 ⟨true, rfl⟩,
   (userFilter_filter_panics scriptBad [] [] []).2.1 ("not a boolean".toList) rfl⟩

theorem getD_append_self (l : List Str) (x : Str) (l' : List Str) :
    (l ++ x :: l').getD l.length [] = x := by
  rw [List.getD_append_right _ _ _ _ (Nat.le_refl _), Nat.sub_self]
  rfl

theorem containsKey_iff (m : List (Str × Str)) (k : Str) :
    containsKey m k = true ↔ k ∈ colorKeys m := by
  induction m with
  | nil => simp [containsKey, colorKeys]
  | cons kv rest ih =>
    obtain ⟨k', v⟩ := kv
    by_cases h : k' = k
    · simp [containsKey, colorKeys, h]
    · simp only [containsKey, if_neg h, colorKeys, List.map_cons, List.mem_cons]
      rw [ih]
      simp only [colorKeys]
      constructor
      · exact fun hk => Or.inr hk
      · rintro (hk | hk)
        · exact absurd hk.symm h
        · exact hk

theorem colorKeys_insertKV (m : List (Str × Str)) (k v : Str) :
    colorKeys (insertKV m k v) = colorKeys m ++ [k] := by
  simp [colorKeys, insertKV]

theorem dedupFirstAux_nil (acc : List Str) : dedupFirstAux acc [] = acc := rfl

theorem dedupFirstAux_cons (acc : List Str) (x : Str) (xs : List Str) :
    dedupFirstAux acc (x :: xs) =
      if x ∈ acc then dedupFirstAux acc xs else dedupFirstAux (acc ++ [x]) xs := rfl

theorem dedupFirstAux_append (l1 : List Str) :
    ∀ (acc l2 : List Str),
      dedupFirstAux acc (l1 ++ l2) = dedupFirstAux (dedupFirstAux acc l1) l2 := by
  induction l1 with
  | nil => intro acc l2; rfl
  | cons x xs ih =>
    intro acc l2
    rw [List.cons_append, dedupFirstAux_cons, dedupFirstAux_cons]
    by_cases h : x ∈ acc
    · rw [if_pos h, if_pos h, ih]
    · rw [if_neg h, if_neg h, ih]

theorem dedupFirstAux_nodup (l : List Str) :
    ∀ (acc : List Str), acc.Nodup → (dedupFirstAux acc l).Nodup := by
  induction l with
  | nil => intro acc h; exact h
  | cons x xs ih =>
    intro acc h
    rw [dedupFirstAux_cons]
    by_cases hx : x ∈ acc
    · rw [if_pos hx]; exact ih acc h
    · rw [if_neg hx]
      refine ih (acc ++ [x]) (List.nodup_append.mpr ⟨h, List.nodup_singleton x, ?_⟩)
      intro a ha hax
      rw [List.mem_singleton] at hax
      exact hx (hax ▸ ha)

theorem mem_dedupFirstAux (l : List Str) :
    ∀ (acc : List Str) (x : Str), x ∈ dedupFirstAux acc l ↔ x ∈ acc ∨ x ∈ l := by
  induction l with
  | nil => intro acc x; simp [dedupFirstAux_nil]
  | cons y ys ih =>
    intro acc x
    rw [dedupFirstAux_cons]
    by_cases hy : y ∈ acc
    · rw [if_pos hy, ih]
      constructor
      · rintro (h | h)
        · exact Or.inl h
        · exact Or.inr (List.mem_cons_of_mem y h)
      · rintro (h | h)
        · exact Or.inl h
        · rcases List.mem_cons.mp h with h | h
          · exact Or.inl (h ▸ hy)
          · exact Or.inr h
    · rw [if_neg hy, ih]
      simp only [List.mem_append, List.mem_singleton, List.mem_cons]
      tauto

theorem lookupNode_append_single (nodes : List (Str × Nat)) (k : Str) (i : Nat)
    (k' : Str) :
    lookupNode (nodes ++ [(k, i)]) k' =
      match lookupNode nodes k' with
      | some j => some j
      | none => if k = k' then some i else none := by
  induction nodes with
  | nil => rfl
  | cons kv rest ih =>
    obtain ⟨k0, j0⟩ := kv
    by_cases h : k0 = k'
    · simp [lookupNode, h]
    · simp only [List.cons_append, lookupNode, if_neg h]
      exact ih

theorem mem_updateEdgeList {α : Type} [DecidableEq α] (es : List (α × α × Str))
    (a b : α) (w : Str) (e : α × α × Str) (h : e ∈ updateEdgeList es a b w) :
    e ∈ es ∨ e = (a, b, w) := by
  induction es with
  | nil =>
    rw [updateEdgeList] at h
    rcases List.mem_singleton.mp h with h
    exact Or.inr h
  | cons e0 es ih =>
    rw [updateEdgeList] at h
    by_cases hc : e0.1 = a ∧ e0.2.1 = b
    · rw [if_pos hc] at h
      rcases List.mem_cons.mp h with h | h
      · exact Or.inr h
      · exact Or.inl (List.mem_cons_of_mem e0 h)
    · rw [if_neg hc] at h
      rcases List.mem_cons.mp h with h | h
      · exact Or.inl (h ▸ List.mem_cons_self e0 es)
      · rcases ih h with h | h
        · exact Or.inl (List.mem_cons_of_mem e0 h)
        · exact Or.inr h

theorem filterPair_nil {α : Type} [DecidableEq α] (a b : α) :
    filterPair a b ([] : List (α × α × Str)) = [] := rfl

theorem filterPair_cons {α : Type} [DecidableEq α] (a b : α) (e : α × α × Str)
    (es : List (α × α × Str)) :
    filterPair a b (e :: es) =
      if e.1 = a ∧ e.2.1 = b then e :: filterPair a b es else filterPair a b es := by
  by_cases h : e.1 = a ∧ e.2.1 = b
  · rw [if_pos h]
    simp [filterPair, List.filter_cons, h.1, h.2]
  · rw [if_neg h]
    rw [Classical.not_and_iff_or_not_not] at h
    rcases h with h | h <;> simp [filterPair, List.filter_cons, h]

theorem pairsOf_nil {α : Type} : pairsOf ([] : List (α × α × Str)) = [] := rfl

theorem pairsOf_cons {α : Type} (e : α × α × Str) (es : List (α × α × Str)) :
    pairsOf (e :: es) = (e.1, e.2.1) :: pairsOf es := rfl

theorem filterPair_eq_nil {α : Type} [DecidableEq α] (es : List (α × α × Str))
    (a b : α) (h : (a, b) ∉ pairsOf es) : filterPair a b es = [] := by
  induction es with
  | nil => rfl
  | cons e es ih =>
    rw [pairsOf_cons, List.mem_cons] at h
    push_neg at h
    rw [filterPair_cons, if_neg, ih h.2]
    intro hc
    exact h.1 (by rw [← hc.1, ← hc.2])

theorem filterPair_updateEdgeList_ne {α : Type} [DecidableEq α]
    (es : List (α × α × Str)) (a b a' b' : α) (w : Str)
    (h : ¬(a = a' ∧ b = b')) :
    filterPair a' b' (updateEdgeList es a b w) = filterPair a' b' es := by
  induction es with
  | nil =>
    rw [updateEdgeList, filterPair_cons, if_neg h]
  | cons e es ih =>
    rw [updateEdgeList]
    by_cases hc : e.1 = a ∧ e.2.1 = b
    · rw [if_pos hc, filterPair_cons, filterPair_cons, if_neg h, if_neg]
      intro hc'
      exact h ⟨hc.1 ▸ hc'.1, hc.2 ▸ hc'.2⟩
    · rw [if_neg hc, filterPair_cons, filterPair_cons]
      by_cases he : e.1 = a' ∧ e.2.1 = b'
      · rw [if_pos he, if_pos he, ih]
      · rw [if_neg he, if_neg he, ih]

theorem pairsOf_updateEdgeList_subset {α : Type} [DecidableEq α]
    (es : List (α × α × Str)) (a b : α) (w : Str) (p : α × α)
    (h : p ∈ pairsOf (updateEdgeList es a b w)) :
    p ∈ pairsOf es ∨ p = (a, b) := by
  unfold pairsOf at h
  rcases List.mem_map.mp h with ⟨e, he, hpe⟩
  rcases mem_updateEdgeList es a b w e he with hm | hm
  · exact Or.inl (hpe ▸ List.mem_map_of_mem _ hm)
  · right
    rw [← hpe, hm]

theorem pairsOf_updateEdgeList_nodup {α : Type} [DecidableEq α]
    (es : List (α × α × Str)) (a b : α) (w : Str)
    (h : (pairsOf es).Nodup) : (pairsOf (updateEdgeList es a b w)).Nodup := by
  induction es with
  | nil =>
    rw [updateEdgeList]
    exact List.nodup_singleton _
  | cons e es ih =>
    rw [pairsOf_cons] at h
    have h1 := List.nodup_cons.mp h
    rw [updateEdgeList]
    by_cases hc : e.1 = a ∧ e.2.1 = b
    · rw [if_pos hc, pairsOf_cons]
      refine List.nodup_cons.mpr ⟨?_, h1.2⟩
      have hpe : (e.1, e.2.1) = ((a, b, w).1, (a, b, w).2.1) := by rw [hc.1, hc.2]
      exact hpe ▸ h1.1
    · rw [if_neg hc, pairsOf_cons]
      refine List.nodup_cons.mpr ⟨?_, ih h1.2⟩
      intro hmem
      rcases pairsOf_updateEdgeList_subset es a b w _ hmem with hm | hm
      · exact h1.1 hm
      · exact hc ⟨congrArg Prod.fst hm, congrArg Prod.snd hm⟩

theorem filterPair_updateEdgeList_self {α : Type} [DecidableEq α]
    (es : List (α × α × Str)) (a b : α) (w : Str)
    (h : (pairsOf es).Nodup) :
    filterPair a b (updateEdgeList es a b w) = [(a, b, w)] := by
  induction es with
  | nil =>
    rw [updateEdgeList, filterPair_cons, if_pos ⟨rfl, rfl⟩, filterPair_nil]
  | cons e es ih =>
    rw [pairsOf_cons] at h
    have h1 := List.nodup_cons.mp h
    rw [updateEdgeList]
    by_cases hc : e.1 = a ∧ e.2.1 = b
    · rw [if_pos hc, filterPair_cons, if_pos ⟨rfl, rfl⟩]
      have hnm : (a, b) ∉ pairsOf es := by
        have hpe : (e.1, e.2.1) = (a, b) := by rw [hc.1, hc.2]
        exact hpe ▸ h1.1
      rw [filterPair_eq_nil es a b hnm]
    · rw [if_neg hc, filterPair_cons, if_neg hc, ih h1.2]

theorem filterPair_foldl_collapseStep (ts : List (Str × Str × Str)) :
    ∀ (acc : List (Str × Str × Str)), (pairsOf acc).Nodup → ∀ a b : Str,
      filterPair a b (ts.foldl collapseStep acc) =
        match lastPred ts a b with
        | some w => [(a, b, w)]
        | none => filterPair a b acc := by
  induction ts with
  | nil =>
    intro acc h a b
    rfl
  | cons t ts ih =>
    intro acc hacc a b
    rw [List.foldl_cons]
    have hstep : (pairsOf (collapseStep acc t)).Nodup :=
      pairsOf_updateEdgeList_nodup _ _ _ _ hacc
    rw [ih (collapseStep acc t) hstep a b]
    cases hl : lastPred ts a b with
    | some w => simp only [lastPred, hl]
    | none =>
      simp only [lastPred, hl]
      by_cases hc : t.1 = a ∧ t.2.1 = b
      · rw [if_pos hc]
        unfold collapseStep
        rw [hc.1, hc.2]
        exact filterPair_updateEdgeList_self acc a b t.2.2 hacc
      · rw [if_neg hc]
        unfold collapseStep
        exact filterPair_updateEdgeList_ne acc t.1 t.2.1 a b t.2.2 hc

theorem nodesInv_empty : NodesInv [] emptyGraph := by
  refine ⟨?_, ?_, ?_, ?_⟩
  · intro k
    simp [lookupNode, emptyGraph]
  · intro k i h
    exact Option.noConfusion h
  · exact List.nodup_nil
  · intro e he
    exact absurd he (List.not_mem_nil e)

theorem nodup_getD_inj (l : List Str) (h : l.Nodup) (i j : Nat)
    (hi : i < l.length) (hj : j < l.length)
    (hij : l.getD i [] = l.getD j []) : i = j := by
  rw [List.getD_eq_getElem _ _ hi, List.getD_eq_getElem _ _ hj] at hij
  exact (h.getElem_inj_iff).mp hij

theorem mem_of_getD (l : List Str) (i : Nat) (hi : i < l.length) :
    l.getD i [] ∈ l := by
  rw [List.getD_eq_getElem _ _ hi]
  exact List.getElem_mem hi

theorem entryOrInsert_eq_some (nodes : List (Str × Nat)) (g : DiGraph) (k : Str)
    (i : Nat) (hl : lookupNode nodes k = some i) :
    entryOrInsert nodes g k = (nodes, g, i) := by
  simp [entryOrInsert, hl]

theorem entryOrInsert_eq_none (nodes : List (Str × Nat)) (g : DiGraph) (k : Str)
    (hl : lookupNode nodes k = none) :
    entryOrInsert nodes g k =
      (nodes ++ [(k, g.nodeWeights.length)],
       { g with nodeWeights := g.nodeWeights ++ [k] }, g.nodeWeights.length) := by
  simp [entryOrInsert, hl]

theorem entryOrInsert_spec (nodes : List (Str × Nat)) (g : DiGraph) (k : Str)
    (hinv : NodesInv nodes g) :
    NodesInv (entryOrInsert nodes g k).1 (entryOrInsert nodes g k).2.1 ∧
    (entryOrInsert nodes g k).2.1.edges = g.edges ∧
    (entryOrInsert nodes g k).2.1.nodeWeights =
      (if k ∈ g.nodeWeights then g.nodeWeights else g.nodeWeights ++ [k]) ∧
    (entryOrInsert nodes g k).2.2 < (entryOrInsert nodes g k).2.1.nodeWeights.length ∧
    (entryOrInsert nodes g k).2.1.nodeWeights.getD (entryOrInsert nodes g k).2.2 [] = k ∧
    labelView (entryOrInsert nodes g k).2.1 = labelView g := by
  cases hl : lookupNode nodes k with
  | some i =>
    have hspec := hinv.lookup_some k i hl
    have hmem : k ∈ g.nodeWeights := by
      by_contra hk
      rw [← hinv.lookup_none k, hl] at hk
      exact Option.noConfusion hk
    rw [entryOrInsert_eq_some nodes g k i hl]
    exact ⟨hinv, rfl, (if_pos hmem).symm, hspec.1, hspec.2, rfl⟩
  | none =>
    have hmem : k ∉ g.nodeWeights := (hinv.lookup_none k).mp hl
    rw [entryOrInsert_eq_none nodes g k hl]
    have hlen : (g.nodeWeights ++ [k]).length = g.nodeWeights.length + 1 := by
      simp
    refine ⟨⟨?_, ?_, ?_, ?_⟩, rfl, (if_neg hmem).symm, ?_, ?_, ?_⟩
    · intro k'
      rw [lookupNode_append_single]
      cases hk' : lookupNode nodes k' with
      | some j =>
        have hj := hinv.lookup_some k' j hk'
        have : k' ∈ g.nodeWeights := hj.2 ▸ mem_of_getD g.nodeWeights j hj.1
        simp only []
        constructor
        · intro hc
          exact Option.noConfusion hc
        · intro hc
          exact absurd (List.mem_append_left [k] this) hc
      | none =>
        have hk'' : k' ∉ g.nodeWeights := (hinv.lookup_none k').mp hk'
        simp only [List.mem_append, List.mem_singleton]
        by_cases he : k = k'
        · rw [if_pos he]
          constructor
          · intro hc
            exact Option.noConfusion hc
          · intro hc
            exact absurd (Or.inr he.symm) hc
        · rw [if_neg he]
          constructor
          · intro _ hc
            rcases hc with hc | hc
            · exact hk'' hc
            · exact he hc.symm
          · intro _
            rfl
    · intro k' i' hi'
      rw [lookupNode_append_single] at hi'
      cases hk' : lookupNode nodes k' with
      | some j =>
        rw [hk'] at hi'
        have hj := hinv.lookup_some k' j hk'
        have hij : i' = j := by
          exact (Option.some.injEq _ _ ▸ hi' : j = i').symm
        subst hij
        constructor
        · rw [hlen]
          exact Nat.lt_succ_of_lt hj.1
        · rw [List.getD_append _ _ _ _ hj.1]
          exact hj.2
      | none =>
        rw [hk'] at hi'
        by_cases he : k = k'
        · rw [if_pos he] at hi'
          have hik : i' = g.nodeWeights.length := by
            exact (Option.some.injEq _ _ ▸ hi' : g.nodeWeights.length = i').symm
          subst hik
          constructor
          · rw [hlen]
            exact Nat.lt_succ_self _
          · rw [getD_append_self]
            exact he
        · rw [if_neg he] at hi'
          exact Option.noConfusion hi'
    · exact List.nodup_append.mpr ⟨hinv.nodup, List.nodup_singleton k,
        fun a ha hak => hmem ((List.mem_singleton.mp hak) ▸ ha)⟩
    · intro e he
      have h0 := hinv.edges_lt e he
      rw [hlen]
      exact ⟨Nat.lt_succ_of_lt h0.1, Nat.lt_succ_of_lt h0.2⟩
    · rw [hlen]
      exact Nat.lt_succ_self _
    · exact getD_append_self g.nodeWeights k []
    · unfold labelView
      apply List.map_congr_left
      intro e he
      have h0 := hinv.edges_lt e he
      rw [List.getD_append _ _ _ _ h0.1, List.getD_append _ _ _ _ h0.2]

theorem update_edge_nodesInv (nodes : List (Str × Nat)) (g : DiGraph)
    (ia ib : Nat) (w : Str) (hinv : NodesInv nodes g)
    (hia : ia < g.nodeWeights.length) (hib : ib < g.nodeWeights.length) :
    NodesInv nodes (update_edge g ia ib w) := by
  refine ⟨hinv.lookup_none, hinv.lookup_some, hinv.nodup, ?_⟩
  intro e he
  rcases mem_updateEdgeList _ _ _ _ _ he with hm | hm
  · exact hinv.edges_lt e hm
  · rw [hm]
    exact ⟨hia, hib⟩

theorem updateEdgeList_map_label (wts : List Str) (hnd : wts.Nodup)
    (ia ib : Nat) (a b : Str) (hia : ia < wts.length) (hib : ib < wts.length)
    (ha : wts.getD ia [] = a) (hb : wts.getD ib [] = b) (w : Str) :
    ∀ (es : List (Nat × Nat × Str)),
      (∀ e ∈ es, e.1 < wts.length ∧ e.2.1 < wts.length) →
      (updateEdgeList es ia ib w).map
          (fun e => (wts.getD e.1 [], wts.getD e.2.1 [], e.2.2)) =
        updateEdgeList (es.map fun e => (wts.getD e.1 [], wts.getD e.2.1 [], e.2.2))
          a b w := by
  intro es
  induction es with
  | nil =>
    intro _
    simp only [updateEdgeList, List.map_cons, List.map_nil]
    rw [ha, hb]
  | cons e es ih =>
    intro hval
    have he := hval e (List.mem_cons_self e es)
    have hval' : ∀ e' ∈ es, e'.1 < wts.length ∧ e'.2.1 < wts.length :=
      fun e' h' => hval e' (List.mem_cons_of_mem e h')
    by_cases hc : e.1 = ia ∧ e.2.1 = ib
    · have hc' : (wts.getD e.1 [], wts.getD e.2.1 [], e.2.2).1 = a ∧
          (wts.getD e.1 [], wts.getD e.2.1 [], e.2.2).2.1 = b := by
        constructor
        · show wts.getD e.1 [] = a
          rw [hc.1, ha]
        · show wts.getD e.2.1 [] = b
          rw [hc.2, hb]
      rw [updateEdgeList, if_pos hc, List.map_cons, List.map_cons, updateEdgeList,
        if_pos hc']
      rw [ha, hb]
    · have hc' : ¬((wts.getD e.1 [], wts.getD e.2.1 [], e.2.2).1 = a ∧
          (wts.getD e.1 [], wts.getD e.2.1 [], e.2.2).2.1 = b) := by
        intro hcc
        exact hc ⟨nodup_getD_inj wts hnd e.1 ia he.1 hia (hcc.1.trans ha.symm),
                  nodup_getD_inj wts hnd e.2.1 ib he.2 hib (hcc.2.trans hb.symm)⟩
      rw [updateEdgeList, if_neg hc, List.map_cons, List.map_cons, updateEdgeList,
        if_neg hc', ih hval']

theorem update_edge_labelView (g : DiGraph) (ia ib : Nat) (a b w : Str)
    (hval : ∀ e ∈ g.edges, e.1 < g.nodeWeights.length ∧ e.2.1 < g.nodeWeights.length)
    (hnd : g.nodeWeights.Nodup)
    (hia : ia < g.nodeWeights.length) (hib : ib < g.nodeWeights.length)
    (ha : g.nodeWeights.getD ia [] = a) (hb : g.nodeWeights.getD ib [] = b) :
    labelView (update_edge g ia ib w) = updateEdgeList (labelView g) a b w := by
  unfold labelView update_edge
  exact updateEdgeList_map_label g.nodeWeights hnd ia ib a b hia hib ha hb w
    g.edges hval

theorem update_edge_nodeWeights (g : DiGraph) (ia ib : Nat) (w : Str) :
    (update_edge g ia ib w).nodeWeights = g.nodeWeights := rfl

theorem insertEdgesL_spec (ts : List (Str × Str × Str)) :
    ∀ (nodes : List (Str × Nat)) (g : DiGraph), NodesInv nodes g →
      (insertEdgesL ts nodes g).nodeWeights =
        dedupFirstAux g.nodeWeights (fromToOf ts) ∧
      labelView (insertEdgesL ts nodes g) = ts.foldl collapseStep (labelView g) := by
  induction ts with
  | nil =>
    intro nodes g hinv
    exact ⟨rfl, rfl⟩
  | cons t ts ih =>
    intro nodes g hinv
    obtain ⟨a, b, w⟩ := t
    obtain ⟨hinv1, hed1, hw1, hi1, hg1, hlv1⟩ := entryOrInsert_spec nodes g a hinv
    obtain ⟨hinv2, hed2, hw2, hi2, hg2, hlv2⟩ :=
      entryOrInsert_spec (entryOrInsert nodes g a).1 (entryOrInsert nodes g a).2.1 b
        hinv1
    have hmono : (entryOrInsert nodes g a).2.1.nodeWeights.length ≤
        (entryOrInsert (entryOrInsert nodes g a).1
          (entryOrInsert nodes g a).2.1 b).2.1.nodeWeights.length := by
      rw [hw2]
      by_cases hbm : b ∈ (entryOrInsert nodes g a).2.1.nodeWeights
      · rw [if_pos hbm]
      · rw [if_neg hbm]
        simp
    have hi1' : (entryOrInsert nodes g a).2.2 <
        (entryOrInsert (entryOrInsert nodes g a).1
          (entryOrInsert nodes g a).2.1 b).2.1.nodeWeights.length :=
      Nat.lt_of_lt_of_le hi1 hmono
    have hg1' : (entryOrInsert (entryOrInsert nodes g a).1
        (entryOrInsert nodes g a).2.1 b).2.1.nodeWeights.getD
          (entryOrInsert nodes g a).2.2 [] = a := by
      rw [hw2]
      by_cases hbm : b ∈ (entryOrInsert nodes g a).2.1.nodeWeights
      · rw [if_pos hbm]
        exact hg1
      · rw [if_neg hbm, List.getD_append _ _ _ _ hi1]
        exact hg1
    have hinv3 : NodesInv (entryOrInsert (entryOrInsert nodes g a).1
        (entryOrInsert nodes g a).2.1 b).1
        (update_edge (entryOrInsert (entryOrInsert nodes g a).1
          (entryOrInsert nodes g a).2.1 b).2.1
          (entryOrInsert nodes g a).2.2
          (entryOrInsert (entryOrInsert nodes g a).1
            (entryOrInsert nodes g a).2.1 b).2.2 w) :=
      update_edge_nodesInv _ _ _ _ _ hinv2 hi1' hi2
    have hstep := ih _ _ hinv3
    have hunfold : insertEdgesL ((a, b, w) :: ts) nodes g =
        insertEdgesL ts (entryOrInsert (entryOrInsert nodes g a).1
          (entryOrInsert nodes g a).2.1 b).1
          (update_edge (entryOrInsert (entryOrInsert nodes g a).1
            (entryOrInsert nodes g a).2.1 b).2.1
            (entryOrInsert nodes g a).2.2
            (entryOrInsert (entryOrInsert nodes g a).1
              (entryOrInsert nodes g a).2.1 b).2.2 w) := rfl
    rw [hunfold]
    constructor
    · rw [hstep.1, update_edge_nodeWeights, hw2, hw1]
      have hw2' : (if b ∈ (entryOrInsert nodes g a).2.1.nodeWeights
            then (entryOrInsert nodes g a).2.1.nodeWeights
            else (entryOrInsert nodes g a).2.1.nodeWeights ++ [b]) =
          dedupFirstAux g.nodeWeights [a, b] := by
        rw [dedupFirstAux_cons]
        by_cases ham : a ∈ g.nodeWeights
        · rw [if_pos ham, dedupFirstAux_cons, dedupFirstAux_nil, hw1, if_pos ham]
          split <;> rfl
        · rw [if_neg ham, dedupFirstAux_cons, dedupFirstAux_nil, hw1, if_neg ham]
          split <;> rfl
      rw [hw1] at hw2'
      rw [hw2']
      have hft : fromToOf ((a, b, w) :: ts) = [a, b] ++ fromToOf ts := by
        simp [fromToOf]
      rw [hft, dedupFirstAux_append]
    · rw [hstep.2]
      have hlv3 : labelView (update_edge (entryOrInsert (entryOrInsert nodes g a).1
          (entryOrInsert nodes g a).2.1 b).2.1
          (entryOrInsert nodes g a).2.2
          (entryOrInsert (entryOrInsert nodes g a).1
            (entryOrInsert nodes g a).2.1 b).2.2 w) =
          updateEdgeList (labelView g) a b w := by
        rw [update_edge_labelView _ _ _ a b w hinv2.edges_lt hinv2.nodup hi1' hi2
          hg1' hg2, hlv2, hlv1]
      rw [hlv3, List.foldl_cons]
      rfl

theorem countOcc_eq_zero (l : List Str) (x : Str) (h : x ∉ l) :
    countOcc l x = 0 := by
  induction l with
  | nil => rfl
  | cons y ys ih =>
    have hyx : (decide (y = x)) = false := by
      simp only [decide_eq_false_iff_not]
      intro he
      exact h (he ▸ List.mem_cons_self y ys)
    unfold countOcc at ih ⊢
    rw [List.filter_cons, hyx, if_neg Bool.false_ne_true]
    exact ih fun hm => h (List.mem_cons_of_mem y hm)

theorem countOcc_le_one_of_nodup (l : List Str) (h : l.Nodup) (x : Str) :
    countOcc l x ≤ 1 := by
  induction l with
  | nil => exact Nat.zero_le 1
  | cons y ys ih =>
    have h1 := List.nodup_cons.mp h
    unfold countOcc
    rw [List.filter_cons]
    by_cases hyx : y = x
    · have hd : (decide (y = x)) = true := by simp [hyx]
      rw [hd, if_pos rfl, List.length_cons]
      have hzero : countOcc ys x = 0 := countOcc_eq_zero ys x (hyx ▸ h1.1)
      unfold countOcc at hzero
      rw [hzero]
    · have hd : (decide (y = x)) = false := by simp [hyx]
      rw [hd, if_neg Bool.false_ne_true]
      exact ih h1.2

theorem resolveColor_ok_char (ask : AskOracle) (rules : List (Str × Str))
    (colors : List (Str × Str)) (resolved : List Str) (term label : Str)
    (p : List (Str × Str) × List Str)
    (h : resolveColor ask rules colors resolved term label = RunResult.ok p) :
    colorKeys p.1 = dedupFirstAux (colorKeys colors) [label] ∧
    (resolved = colorKeys colors → p.2 = colorKeys p.1) := by
  unfold resolveColor at h
  by_cases hc : containsKey colors label = true
  · rw [if_pos hc] at h
    have hmem : label ∈ colorKeys colors := (containsKey_iff colors label).mp hc
    have hp : (colors, resolved) = p := RunResult.ok.inj h
    rw [← hp]
    rw [dedupFirstAux_cons, if_pos hmem, dedupFirstAux_nil]
    exact ⟨rfl, fun hres => hres⟩
  · rw [if_neg hc] at h
    have hmem : label ∉ colorKeys colors :=
      fun hm => hc ((containsKey_iff colors label).mpr hm)
    cases ht : to_color ask rules term with
    | error e =>
      rw [ht] at h
      exact RunResult.noConfusion h
    | ok c =>
      rw [ht] at h
      have hp : (insertKV colors label c, resolved ++ [label]) = p :=
        RunResult.ok.inj h
      rw [← hp]
      rw [dedupFirstAux_cons, if_neg hmem, dedupFirstAux_nil]
      refine ⟨colorKeys_insertKV colors label c, fun hres => ?_⟩
      rw [colorKeys_insertKV colors label c, hres]

theorem processRow_ok_char (ask : AskOracle) (rules order : List (Str × Str))
    (filter : Str → Str → Str → Bool) (st : BuildState) (row : Row)
    (st1 : BuildState) (hs : survives filter row = true)
    (h : processRow ask rules order filter st row = RunResult.ok st1) :
    st1.labels = st.labels ++
      [rewrite_term order row.from_, rewrite_term order row.to_,
       rewrite_term order row.p] ∧
    st1.edges = st.edges ++
      [(st.labels.length, st.labels.length + 1, st.labels.length + 2)] ∧
    colorKeys st1.colors = dedupFirstAux (colorKeys st.colors)
      [rewrite_term order row.from_, rewrite_term order row.to_] ∧
    (st.resolved = colorKeys st.colors → st1.resolved = colorKeys st1.colors) := by
  have h' : filter row.from_ row.to_ row.p = true := hs
  unfold processRow at h
  rw [h'] at h
  simp only [Bool.not_true, Bool.false_eq_true, if_false] at h
  cases hr1 : resolveColor ask rules st.colors st.resolved row.from_
      (rewrite_term order row.from_) with
  | panicked =>
    rw [hr1] at h
    exact RunResult.noConfusion h
  | err e =>
    rw [hr1] at h
    exact RunResult.noConfusion h
  | ok p1 =>
    rw [hr1] at h
    obtain ⟨colors1, resolved1⟩ := p1
    simp only [] at h
    have hchar1 := resolveColor_ok_char ask rules st.colors st.resolved row.from_
      (rewrite_term order row.from_) (colors1, resolved1) hr1
    cases hr2 : resolveColor ask rules colors1 resolved1 row.to_
        (rewrite_term order row.to_) with
    | panicked =>
      rw [hr2] at h
      exact RunResult.noConfusion h
    | err e =>
      rw [hr2] at h
      exact RunResult.noConfusion h
    | ok p2 =>
      rw [hr2] at h
      obtain ⟨colors2, resolved2⟩ := p2
      simp only [] at h
      have hchar2 := resolveColor_ok_char ask rules colors1 resolved1 row.to_
        (rewrite_term order row.to_) (colors2, resolved2) hr2
      have hst := RunResult.ok.inj h
      rw [← hst]
      refine ⟨by simp, by simp, ?_, ?_⟩
      · show colorKeys colors2 = _
        rw [hchar2.1, hchar1.1, ← dedupFirstAux_append]
        rfl
      · intro hres
        show resolved2 = colorKeys colors2
        exact hchar2.2 (hchar1.2 hres)

theorem processRows_ok_char (ask : AskOracle) (rules order : List (Str × Str))
    (filter : Str → Str → Str → Bool) (rows : List Row) :
    ∀ (st st' : BuildState),
      processRows ask rules order filter rows st = RunResult.ok st' →
      edgesValid st →
      edgesValid st' ∧
      tripleView st' = tripleView st ++ survivorTriples order filter rows ∧
      colorKeys st'.colors =
        dedupFirstAux (colorKeys st.colors) (fromToLabels order filter rows) ∧
      (st.resolved = colorKeys st.colors → st'.resolved = colorKeys st'.colors) := by
  induction rows with
  | nil =>
    intro st st' h hv
    have hst : st = st' := RunResult.ok.inj h
    subst hst
    exact ⟨hv, by simp [survivorTriples], by simp [fromToLabels, dedupFirstAux_nil],
      fun hres => hres⟩
  | cons row rest ih =>
    intro st st' h hv
    cases hs : survives filter row with
    | false =>
      rw [processRows, processRow_skip ask rules order filter st row hs] at h
      have hrec := ih st st' h hv
      have hsurv : (row :: rest).filter (survives filter) =
          rest.filter (survives filter) := by
        rw [List.filter_cons, hs]
        simp
      refine ⟨hrec.1, ?_, ?_, hrec.2.2.2⟩
      · rw [hrec.2.1]
        unfold survivorTriples
        rw [hsurv]
      · rw [hrec.2.2.1]
        unfold fromToLabels
        rw [hsurv]
    | true =>
      rw [processRows] at h
      cases hp : processRow ask rules order filter st row with
      | err e =>
        rw [hp] at h
        exact RunResult.noConfusion h
      | panicked =>
        rw [hp] at h
        exact RunResult.noConfusion h
      | ok st1 =>
        rw [hp] at h
        have hchar := processRow_ok_char ask rules order filter st row st1 hs hp
        have hv1 : edgesValid st1 := by
          intro e he
          rw [hchar.2.1] at he
          rw [hchar.1]
          rcases List.mem_append.mp he with hm | hm
          · have h0 := hv e hm
            simp only [List.length_append, List.length_cons, List.length_nil]
            exact ⟨by omega, by omega, by omega⟩
          · rw [List.mem_singleton.mp hm]
            simp only [List.length_append, List.length_cons, List.length_nil]
            exact ⟨by omega, by omega, by omega⟩
        have hrec := ih st1 st' h hv1
        have hsurv : (row :: rest).filter (survives filter) =
            row :: rest.filter (survives filter) := by
          rw [List.filter_cons, hs]
          simp
        have htv1 : tripleView st1 = tripleView st ++ [rowTriple order row] := by
          unfold tripleView
          rw [hchar.2.1, hchar.1, List.map_append]
          congr 1
          · apply List.map_congr_left
            intro e he
            have h0 := hv e he
            rw [List.getD_append _ _ _ _ h0.1, List.getD_append _ _ _ _ h0.2.1,
              List.getD_append _ _ _ _ h0.2.2]
          · simp only [List.map_cons, List.map_nil]
            unfold rowTriple
            have e1 : (st.labels ++ [rewrite_term order row.from_,
                rewrite_term order row.to_, rewrite_term order row.p]).getD
                  st.labels.length [] = rewrite_term order row.from_ :=
              getD_append_self _ _ _
            have e2 : (st.labels ++ [rewrite_term order row.from_,
                rewrite_term order row.to_, rewrite_term order row.p]).getD
                  (st.labels.length + 1) [] = rewrite_term order row.to_ := by
              rw [show st.labels ++ [rewrite_term order row.from_,
                  rewrite_term order row.to_, rewrite_term order row.p] =
                  (st.labels ++ [rewrite_term order row.from_]) ++
                  [rewrite_term order row.to_, rewrite_term order row.p] by simp,
                show st.labels.length + 1 =
                  (st.labels ++ [rewrite_term order row.from_]).length by simp]
              exact getD_append_self _ _ _
            have e3 : (st.labels ++ [rewrite_term order row.from_,
                rewrite_term order row.to_, rewrite_term order row.p]).getD
                  (st.labels.length + 2) [] = rewrite_term order row.p := by
              rw [show st.labels ++ [rewrite_term order row.from_,
                  rewrite_term order row.to_, rewrite_term order row.p] =
                  (st.labels ++ [rewrite_term order row.from_,
                    rewrite_term order row.to_]) ++
                  [rewrite_term order row.p] by simp,
                show st.labels.length + 2 =
                  (st.labels ++ [rewrite_term order row.from_,
                    rewrite_term order row.to_]).length by simp]
              exact getD_append_self _ _ _
            rw [e1, e2, e3]
        refine ⟨hrec.1, ?_, ?_, ?_⟩
        · rw [hrec.2.1, htv1]
          unfold survivorTriples
          rw [hsurv, List.map_cons, List.append_assoc]
          rfl
        · rw [hrec.2.2.1, hchar.2.2.1]
          unfold fromToLabels
          rw [hsurv]
          rw [List.flatMap_cons, ← dedupFirstAux_append]
        · intro hres
          exact hrec.2.2.2 (hchar.2.2.2 hres)

theorem insertEdges_eq_insertEdgesL (labels : List Str) :
    ∀ (edges : List (Nat × Nat × Nat)) (nodes : List (Str × Nat)) (g : DiGraph),
      insertEdges labels edges nodes g =
        insertEdgesL (edges.map fun e =>
          (labels.getD e.1 [], labels.getD e.2.1 [], labels.getD e.2.2 []))
          nodes g := by
  intro edges
  induction edges with
  | nil =>
    intro nodes g
    rfl
  | cons e rest ih =>
    intro nodes g
    obtain ⟨fi, ti, ei⟩ := e
    rw [List.map_cons]
    simp only [insertEdges, insertEdgesL]
    exact ih _ _

theorem fromToOf_survivorTriples (order : List (Str × Str))
    (filter : Str → Str → Str → Bool) (rows : List Row) :
    fromToOf (survivorTriples order filter rows) = fromToLabels order filter rows := by
  unfold fromToOf survivorTriples fromToLabels
  rw [List.flatMap_map]
  rfl

/-- Characterization of a successful create_graph run from the empty
state: the node labels are the first-occurrence deduplication of the
from/to labels of the surviving rows, the edges (viewed through node
labels) are the last-write-wins collapse of the surviving label triples,
the color-cache keys coincide with the node labels, and the resolution
trace coincides with the cache keys. -/
theorem create_graph_ok_char (ask : AskOracle) (rules order : List (Str × Str))
    (filter : Str → Str → Str → Bool) (rows : List Row) (g : DiGraph)
    (colors : List (Str × Str)) (resolved : List Str)
    (h : create_graph ask rules order filter rows =
      RunResult.ok (g, colors, resolved)) :
    g.nodeWeights = dedupFirst (fromToLabels order filter rows) ∧
    labelView g = collapse (survivorTriples order filter rows) ∧
    colorKeys colors = dedupFirst (fromToLabels order filter rows) ∧
    resolved = colorKeys colors := by
  unfold create_graph at h
  cases hpr : processRows ask rules order filter rows emptyState with
  | err e =>
    rw [hpr] at h
    exact RunResult.noConfusion h
  | panicked =>
    rw [hpr] at h
    exact RunResult.noConfusion h
  | ok st =>
    rw [hpr] at h
    have hinj := RunResult.ok.inj h
    have hg : insertEdges st.labels st.edges [] emptyGraph = g :=
      congrArg Prod.fst hinj
    have hc : st.colors = colors :=
      congrArg Prod.fst (congrArg Prod.snd hinj)
    have hr : st.resolved = resolved :=
      congrArg Prod.snd (congrArg Prod.snd hinj)
    have hvalid : edgesValid emptyState := by
      intro e he
      exact absurd he (List.not_mem_nil e)
    have hrec := processRows_ok_char ask rules order filter rows emptyState st
      hpr hvalid
    have htv : tripleView st = survivorTriples order filter rows := by
      rw [hrec.2.1]
      rfl
    have hkeys : colorKeys st.colors = dedupFirst (fromToLabels order filter rows) := by
      rw [hrec.2.2.1]
      rfl
    have hres : st.resolved = colorKeys st.colors := hrec.2.2.2 rfl
    have hbridge : insertEdges st.labels st.edges [] emptyGraph =
        insertEdgesL (tripleView st) [] emptyGraph :=
      insertEdges_eq_insertEdgesL st.labels st.edges [] emptyGraph
    have hspec := insertEdgesL_spec (tripleView st) [] emptyGraph nodesInv_empty
    refine ⟨?_, ?_, ?_, ?_⟩
    · rw [← hg, hbridge, hspec.1, htv, fromToOf_survivorTriples]
      rfl
    · rw [← hg, hbridge, hspec.2, htv]
      rfl
    · rw [← hc, hkeys]
    · rw [← hr, ← hc, hres]

/-- C2: on a successful build, for every ordered pair of node labels the
graph carries exactly one edge between that pair when some surviving row
produced it — labeled with the predicate label of the last such row in
processing order — and no edge otherwise; earlier predicates on the same
pair are overwritten, never kept as parallel edges. -/
theorem create_graph_last_write_wins (ask : AskOracle)
    (rules order : List (Str × Str)) (filter : Str → Str → Str → Bool)
    (rows : List Row) (g : DiGraph) (colors : List (Str × Str))
    (resolved : List Str)
    (h : create_graph ask rules order filter rows =
      RunResult.ok (g, colors, resolved)) (a b : Str) :
    edgesBetween g a b =
      (match lastPred (survivorTriples order filter rows) a b with
       | some w => [w]
       | none => []) := by
  have hchar := create_graph_ok_char ask rules order filter rows g colors
    resolved h
  unfold edgesBetween
  rw [hchar.2.1]
  unfold collapse
  rw [filterPair_foldl_collapseStep (survivorTriples order filter rows) []
    (by rw [pairsOf_nil]; exact List.nodup_nil) a b]
  cases lastPred (survivorTriples order filter rows) a b with
  | some w => rfl
  | none => rfl

/-- Witness for C2: two surviving rows with the same (from, to) pair and
predicates urn:p then urn:q leave exactly one edge, labeled urn:q. -/
theorem create_graph_last_write_wins_witness :
    create_graph askTrue [ruleA] PREFIXES filterTrue [rowXY, rowXY2] =
      RunResult.ok
        (⟨["urn:x".toList, "urn:y".toList], [(0, 1, "urn:q".toList)]⟩,
         [("urn:x".toList, "red".toList), ("urn:y".toList, "red".toList)],
         ["urn:x".toList, "urn:y".toList]) ∧
    edgesBetween ⟨["urn:x".toList, "urn:y".toList], [(0, 1, "urn:q".toList)]⟩
        ("urn:x".toList) ("urn:y".toList) =
      (match lastPred (survivorTriples PREFIXES filterTrue [rowXY, rowXY2])
          ("urn:x".toList) ("urn:y".toList) with
       | some w => [w]
       | none => []) :=
  ⟨rfl, create_graph_last_write_wins askTrue [ruleA] PREFIXES filterTrue
    [rowXY, rowXY2] _ _ _ rfl ("urn:x".toList) ("urn:y".toList)⟩

/-- C3: on a successful build, the graph contains exactly one node per
distinct post-normalization label appearing as from or to in a surviving
row: the node-weight list is the first-occurrence deduplication of those
labels (so a label's node identity is fixed at its first insertion, also
when two distinct raw terms normalize to the same label), it has no
duplicates, and it carries exactly the from/to labels of surviving rows. -/
theorem create_graph_node_dedup (ask : AskOracle)
    (rules order : List (Str × Str)) (filter : Str → Str → Str → Bool)
    (rows : List Row) (g : DiGraph) (colors : List (Str × Str))
    (resolved : List Str)
    (h : create_graph ask rules order filter rows =
      RunResult.ok (g, colors, resolved)) :
    g.nodeWeights = dedupFirst (fromToLabels order filter rows) ∧
    g.nodeWeights.Nodup ∧
    (∀ l, l ∈ g.nodeWeights ↔ l ∈ fromToLabels order filter rows) := by
  have hchar := create_graph_ok_char ask rules order filter rows g colors
    resolved h
  refine ⟨hchar.1, ?_, ?_⟩
  · rw [hchar.1]
    exact dedupFirstAux_nodup _ [] List.nodup_nil
  · intro l
    rw [hchar.1]
    unfold dedupFirst
    rw [mem_dedupFirstAux]
    simp

/-- Witness for C3: both rows mention the same two labels, so the graph
has the two nodes urn:x and urn:y once each, and the predicate label
urn:p is not a node. -/
theorem create_graph_node_dedup_witness :
    create_graph askTrue [ruleA] PREFIXES filterTrue [rowXY, rowXY2] =
      RunResult.ok
        (⟨["urn:x".toList, "urn:y".toList], [(0, 1, "urn:q".toList)]⟩,
         [("urn:x".toList, "red".toList), ("urn:y".toList, "red".toList)],
         ["urn:x".toList, "urn:y".toList]) ∧
    (["urn:x".toList, "urn:y".toList] : List Str).Nodup ∧
    (("urn:p".toList ∈ (["urn:x".toList, "urn:y".toList] : List Str)) ↔
      "urn:p".toList ∈ fromToLabels PREFIXES filterTrue [rowXY, rowXY2]) :=
  ⟨rfl,
   (create_graph_node_dedup askTrue [ruleA] PREFIXES filterTrue
     [rowXY, rowXY2] _ _ _ rfl).2.1,
   (create_graph_node_dedup askTrue [ruleA] PREFIXES filterTrue
     [rowXY, rowXY2] _ _ _ rfl).2.2 ("urn:p".toList)⟩

/-- C5: on a successful build, the to_color resolution pass ran at most
once per distinct normalized label: the execution trace of resolved labels
has no duplicates, so each label's count in it is at most one, however
many surviving rows referenced that label (later references hit the
cache). -/
theorem create_graph_single_resolution (ask : AskOracle)
    (rules order : List (Str × Str)) (filter : Str → Str → Str → Bool)
    (rows : List Row) (g : DiGraph) (colors : List (Str × Str))
    (resolved : List Str)
    (h : create_graph ask rules order filter rows =
      RunResult.ok (g, colors, resolved)) :
    resolved.Nodup ∧ ∀ l, countOcc resolved l ≤ 1 := by
  have hchar := create_graph_ok_char ask rules order filter rows g colors
    resolved h
  have hnd : resolved.Nodup := by
    rw [hchar.2.2.2, hchar.2.2.1]
    exact dedupFirstAux_nodup _ [] List.nodup_nil
  exact ⟨hnd, fun l => countOcc_le_one_of_nodup resolved hnd l⟩

/-- Witness for C5: both rows reference urn:x and urn:y, yet each label
was resolved once. -/
theorem create_graph_single_resolution_witness :
    create_graph askTrue [ruleA] PREFIXES filterTrue [rowXY, rowXY2] =
      RunResult.ok
        (⟨["urn:x".toList, "urn:y".toList], [(0, 1, "urn:q".toList)]⟩,
         [("urn:x".toList, "red".toList), ("urn:y".toList, "red".toList)],
         ["urn:x".toList, "urn:y".toList]) ∧
    (["urn:x".toList, "urn:y".toList] : List Str).Nodup ∧
    countOcc ["urn:x".toList, "urn:y".toList] ("urn:x".toList) ≤ 1 :=
  ⟨rfl,
   (create_graph_single_resolution askTrue [ruleA] PREFIXES filterTrue
     [rowXY, rowXY2] _ _ _ rfl).1,
   (create_graph_single_resolution askTrue [ruleA] PREFIXES filterTrue
     [rowXY, rowXY2] _ _ _ rfl).2 ("urn:x".toList)⟩

/-- C9: on a successful build, the key list of the color cache is exactly
the node-label list of the graph: every from/to label of a surviving row
has exactly one color entry (the keys are duplicate-free and are exactly
those labels, so a label occurring only as a predicate receives none), and
every fill line emitted by the d2 serializer names a node of the graph. -/
theorem create_graph_colors_cover_nodes (ask : AskOracle)
    (rules order : List (Str × Str)) (filter : Str → Str → Str → Bool)
    (rows : List Row) (g : DiGraph) (colors : List (Str × Str))
    (resolved : List Str)
    (h : create_graph ask rules order filter rows =
      RunResult.ok (g, colors, resolved)) :
    colorKeys colors = g.nodeWeights ∧
    (colorKeys colors).Nodup ∧
    (∀ l, l ∈ colorKeys colors ↔ l ∈ fromToLabels order filter rows) ∧
    (∀ n c, D2Line.fillLine n c ∈ graph_to_d2lang g colors →
      n ∈ g.nodeWeights) := by
  have hchar := create_graph_ok_char ask rules order filter rows g colors
    resolved h
  have hk : colorKeys colors = g.nodeWeights := by
    rw [hchar.2.2.1, hchar.1]
  refine ⟨hk, ?_, ?_, ?_⟩
  · rw [hchar.2.2.1]
    exact dedupFirstAux_nodup _ [] List.nodup_nil
  · intro l
    rw [hchar.2.2.1]
    unfold dedupFirst
    rw [mem_dedupFirstAux]
    simp
  · intro n c hmem
    unfold graph_to_d2lang at hmem
    rcases List.mem_append.mp hmem with hm | hm
    · rcases List.mem_map.mp hm with ⟨e, _, he⟩
      exact D2Line.noConfusion he
    · rcases List.mem_map.mp hm with ⟨kc, hkc, he⟩
      have hn : kc.1 = n := (D2Line.fillLine.inj he).1
      rw [← hk, ← hn]
      exact List.mem_map_of_mem Prod.fst hkc

/-- Witness for C9: the cache keys equal the node labels, and the fill
line for urn:x names a node of the graph. -/
theorem create_graph_colors_cover_nodes_witness :
    create_graph askTrue [ruleA] PREFIXES filterTrue [rowXY, rowXY2] =
      RunResult.ok
        (⟨["urn:x".toList, "urn:y".toList], [(0, 1, "urn:q".toList)]⟩,
         [("urn:x".toList, "red".toList), ("urn:y".toList, "red".toList)],
         ["urn:x".toList, "urn:y".toList]) ∧
    colorKeys [("urn:x".toList, "red".toList), ("urn:y".toList, "red".toList)] =
      (⟨["urn:x".toList, "urn:y".toList],
        [(0, 1, "urn:q".toList)]⟩ : DiGraph).nodeWeights ∧
    "urn:x".toList ∈ (⟨["urn:x".toList, "urn:y".toList],
        [(0, 1, "urn:q".toList)]⟩ : DiGraph).nodeWeights :=
  ⟨rfl,
   (create_graph_colors_cover_nodes askTrue [ruleA] PREFIXES filterTrue
     [rowXY, rowXY2] _ _ _ rfl).1,
   (create_graph_colors_cover_nodes askTrue [ruleA] PREFIXES filterTrue
     [rowXY, rowXY2] _ _ _ rfl).2.2.2 ("urn:x".toList) ("red".toList)
     (by decide)⟩

end RdfClassViz
